import Mathlib

/-!
Shallow embedding of the synthetic tree-dataset generator of
`src/tree_generator.py` (the `TreeNode` class, `generate_random_tree`,
`generate_random_tree_from_base`, and the relevant fragments of
`generational_random_generator`), together with proofs settling the frozen
claims about it.

Randomness model: every call to a primitive of Python's `random` module
consumes one value of an ambient stream `g : ℕ → ℚ` of uniform draws from
`[0,1)`, in program order; each primitive is a pure function of the drawn
value (`random.random()` is the value itself, `random.randint`/`random.choice`
scale and floor it, `random.choices` does cumulative-weight selection on the
scaled value, exactly as `bisect` over the running sums does).  Floats are
modelled as rationals.  Claims quantify over the draw stream.
-/

/-- Labeled ordered tree, the functional view of the `TreeNode` class: `label`
and the owned ordered `children`.  The `parent` back-reference, the cached
`size` argument and the `index` field are not used by
`generate_random_tree_from_base`, `get_size` or `__repr__`; the builder
(`generate_random_tree`), which does read `index`, is embedded separately with
a tree type that carries it. -/
inductive TreeNode where
  | node (label : ℕ) (children : List TreeNode)
deriving Repr

mutual

/-- Number of nodes of a tree (the specification-side node count; the
serialization round-trips with it by counting open braces). -/
def countNodes : TreeNode → ℕ
  | .node _ cs => 1 + countNodesL cs

/-- Total node count of a list of trees. -/
def countNodesL : List TreeNode → ℕ
  | [] => 0
  | c :: cs => countNodes c + countNodesL cs

end

mutual

/-- `TreeNode.get_size` (lines 23–27): `_s = len(self.children)`, then
`_s += c.get_size()` for each child. -/
def get_size : TreeNode → ℕ
  | .node _ cs => cs.length + get_sizeL cs

/-- The `for c in self.children: _s += c.get_size()` loop of `get_size`. -/
def get_sizeL : List TreeNode → ℕ
  | [] => 0
  | c :: cs => get_size c + get_sizeL cs

end

/-- The open-brace character `{` of the serialization format. -/
def obrace : Char := Char.ofNat 123

/-- The close-brace character `}` of the serialization format. -/
def cbrace : Char := Char.ofNat 125

/-- Decimal rendering of a label, as Python's `str` does for a non-negative
integer. -/
def natChars (n : ℕ) : List Char :=
  if _h : n < 10 then [Nat.digitChar n]
  else natChars (n / 10) ++ [Nat.digitChar (n % 10)]
termination_by n
decreasing_by
  exact Nat.div_lt_self (by omega) (by omega)

mutual

/-- `TreeNode.__repr__` (lines 36–41): `"{" + str(label)` followed by the
children's serializations in order, then `"}"`, with no separators. -/
def serialize : TreeNode → List Char
  | .node l cs => obrace :: (natChars l ++ serializeL cs ++ [cbrace])

/-- The `for child in self.children` loop of `__repr__`. -/
def serializeL : List TreeNode → List Char
  | [] => []
  | c :: cs => serialize c ++ serializeL cs

end

/-- `random.choice(seq)`: uniform pick from a list, driven by one draw
`q ∈ [0,1)` (index `⌊q·len⌋`). -/
def uchoice (labels : List ℕ) (q : ℚ) : ℕ :=
  labels.getD (Int.toNat ⌊q * labels.length⌋) 0

/-- `random.randint(1, 2)`: driven by one draw `q ∈ [0,1)`. -/
def randint12 (q : ℚ) : ℕ :=
  1 + Int.toNat ⌊q * 2⌋

/-- Cumulative-weight index selection as performed by `random.choices`:
`bisect` over the running sums of the weights, with the target `t` already
scaled into `[0, total)`. -/
def wpick : List ℚ → ℚ → ℕ
  | [], _ => 0
  | w :: ws, t => if t < w then 0 else wpick ws (t - w) + 1

/-- The edit operations offered by `generate_random_tree_from_base` (line 84):
`random.choices(["label", "append"], weights=[2, 1])`. -/
inductive Op where
  | label
  | append
deriving Repr

/-- The weighted operation choice of line 84 (weights `[2, 1]`, total mass 3),
driven by one draw `q ∈ [0,1)`. -/
def chooseOp (q : ℚ) : Op :=
  if wpick [(2 : ℚ), 1] (q * 3) = 0 then Op.label else Op.append

/-- Result of one call of `generate_random_tree_from_base`: the mutated tree,
the returned `current_edits` counter, the position of the next unconsumed draw,
and two specification-side observers counting the relabel and insert-leaf
operations actually applied within the call (the observers do not influence
the tree, the counter or the draw positions). -/
structure DOut where
  tree : TreeNode
  edits : ℕ
  next : ℕ
  nLabel : ℕ
  nAppend : ℕ
deriving Repr

/-- Result of the `for c in tree.children` loop: the mutated children, the
updated counter, the next draw position, and the observers. -/
structure DLOut where
  children : List TreeNode
  edits : ℕ
  next : ℕ
  nLabel : ℕ
  nAppend : ℕ
deriving Repr

/-- Result of the edit loop at one node: the final label, the leaves appended
to `children` (in order), the updated counter, the next draw position, and the
observers. -/
structure OpsOut where
  lab : ℕ
  leaves : List TreeNode
  edits : ℕ
  next : ℕ
  nLabel : ℕ
  nAppend : ℕ
deriving Repr

/-- The `for _ in range(random_ops)` loop of lines 83–90: each iteration draws
an operation (weights `[2, 1]`), applies it — replace the label by a uniform
draw from `labels`, or append a fresh leaf with a uniformly drawn label — and
then increments `current_edits` by one. -/
def applyOps (labels : List ℕ) (g : ℕ → ℚ) : ℕ → ℕ → List TreeNode → ℕ → ℕ → OpsOut
  | 0, lab, leaves, e, k => ⟨lab, leaves, e, k, 0, 0⟩
  | n + 1, lab, leaves, e, k =>
    match chooseOp (g k) with
    | Op.label =>
      let r := applyOps labels g n (uchoice labels (g (k + 1))) leaves (e + 1) (k + 2)
      { r with nLabel := r.nLabel + 1 }
    | Op.append =>
      let r := applyOps labels g n lab
        (leaves ++ [TreeNode.node (uchoice labels (g (k + 1))) []]) (e + 1) (k + 2)
      { r with nAppend := r.nAppend + 1 }

mutual

/-- Shallow embedding of `generate_random_tree_from_base` (lines 73–94).
`sim` is `similarity`, `maxE` is `max_edits`, `e` is `current_edits` and `k`
the next draw position.  At the visited node, if `random.random() > similarity`
and `current_edits < max_edits`, a batch of `random.randint(1, 2)` operations
is applied (each incrementing the counter).  The recursion then visits
`tree.children` as the list stands after the edit phase — so leaves appended at
this node are themselves visited — and for each child the caller adds the
child's full returned counter onto its own (`current_edits += ce`), exactly as
the source does. -/
def derive (sim : ℚ) (labels : List ℕ) (maxE : ℕ) (g : ℕ → ℚ) :
    TreeNode → ℕ → ℕ → DOut
  | .node lab cs, e, k =>
    if h : sim < g k ∧ e < maxE then
      let n := randint12 (g (k + 1))
      let r := applyOps labels g n lab [] e (k + 2)
      let rl := deriveList sim labels maxE g (cs ++ r.leaves) r.edits r.next
      ⟨.node r.lab rl.children, rl.edits, rl.next, r.nLabel + rl.nLabel,
        r.nAppend + rl.nAppend⟩
    else
      let rl := deriveList sim labels maxE g cs e (k + 1)
      ⟨.node lab rl.children, rl.edits, rl.next, rl.nLabel, rl.nAppend⟩
termination_by t e k => (maxE - e, 2 * countNodes t)
decreasing_by
  · have he : ∀ n lab' lv e' k', (applyOps labels g n lab' lv e' k').edits = e' + n := by
      intro n
      induction n with
      | zero => intro lab' lv e' k'; simp [applyOps]
      | succ m ih =>
        intro lab' lv e' k'
        rw [applyOps]
        cases chooseOp (g k') <;> simp [ih] <;> omega
    have hn : 1 ≤ randint12 (g (k + 1)) := by simp [randint12]
    apply Prod.Lex.left
    rw [he]
    omega
  · apply Prod.Lex.right
    simp [countNodes]
    omega

/-- The `for c in tree.children` loop of `generate_random_tree_from_base`
(lines 91–93). -/
def deriveList (sim : ℚ) (labels : List ℕ) (maxE : ℕ) (g : ℕ → ℚ) :
    List TreeNode → ℕ → ℕ → DLOut
  | [], e, k => ⟨[], e, k, 0, 0⟩
  | c :: cs, e, k =>
    match derive sim labels maxE g c e k with
    | ⟨t', ce, k', nl, na⟩ =>
      let rl := deriveList sim labels maxE g cs (e + ce) k'
      ⟨t' :: rl.children, rl.edits, rl.next, nl + rl.nLabel, na + rl.nAppend⟩
termination_by cs e k => (maxE - e, 2 * countNodesL cs + 1)
decreasing_by
  · apply Prod.Lex.right
    have hc : 0 < countNodes c := by cases c; simp [countNodes]
    simp [countNodesL]
    omega
  · have hc : 0 < countNodes c := by cases c; simp [countNodes]
    rcases Nat.lt_or_ge (maxE - (e + ce)) (maxE - e) with h | h
    · exact Prod.Lex.left _ _ h
    · have he : maxE - (e + ce) = maxE - e := by omega
      rw [he]
      apply Prod.Lex.right
      simp [countNodesL]
      omega

end

/-- The pruning trigger of `generational_random_generator` (line 224):
`if not (min_size > new_tree_size > max_size):` — a Python chained comparison,
i.e. `not (min_size > s and s > max_size)`. -/
def shouldNormalize (mn mx s : ℕ) : Bool :=
  !(decide (mn > s) && decide (s > mx))

/-- `delete_modifications = new_tree_size - random.randint(min_size, max_size)`
(line 225); the pruning loop then runs `range(delete_modifications)` times, so
a non-positive value means no pruning. -/
def deleteModifications (s target : ℕ) : ℤ :=
  (s : ℤ) - (target : ℤ)

/-- The alphabet extension performed before deriving a new generation
(lines 202–204): while the active slice is shorter than the global alphabet,
append the next `generation_max_new_nodes` labels
(`labels[max_label_idx : max_label_idx + generation_max_new_nodes]`) and
advance the index.  Returns the new active slice and the new index. -/
def extendLabels (labels labelsToUse : List ℕ) (maxLabelIdx gmax : ℕ) :
    List ℕ × ℕ :=
  if labelsToUse.length < labels.length then
    (labelsToUse ++ (labels.drop maxLabelIdx).take gmax, maxLabelIdx + gmax)
  else
    (labelsToUse, maxLabelIdx)

/-- The per-tree derivation call of `generational_random_generator`
(lines 215–220): `generate_random_tree_from_base(copy.deepcopy(gen_base_tree),
similarity=similarity, labels=labels, max_edits=9999999)`.  Note that it
passes the full global `labels` list; the active slice `labels_to_use` is in
scope at the call site but unused, which the second parameter mirrors. -/
def genDeriveCall (sim : ℚ) (labels _labelsToUse : List ℕ) (g : ℕ → ℚ)
    (base : TreeNode) : DOut :=
  derive sim labels 9999999 g base 0 0

/-- Tree type for the builder `generate_random_tree`: besides the label and
children it records `pos`, the node's position in the builder's `nodes` list
(its creation order, standing in for Python object identity), and `idx`, the
value the source stores in the node's `index` field (`0` for the root, the
loop variable `i` for the child created in iteration `i`). -/
inductive BTree where
  | node (label : ℕ) (pos : ℕ) (idx : ℕ) (children : List BTree)
deriving Repr

mutual

/-- Node count of a builder tree. -/
def bcount : BTree → ℕ
  | .node _ _ _ cs => 1 + bcountL cs

/-- Node count of a list of builder trees. -/
def bcountL : List BTree → ℕ
  | [] => 0
  | c :: cs => bcount c + bcountL cs

end

mutual

/-- Number of nodes with creation position `p` in a builder tree (the
invariant of the builder keeps it at one for every created position, zero
otherwise). -/
def occ (p : ℕ) : BTree → ℕ
  | .node _ q _ cs => (if q = p then 1 else 0) + occL p cs

/-- `occ` over a list of builder trees. -/
def occL (p : ℕ) : List BTree → ℕ
  | [] => 0
  | c :: cs => occ p c + occL p cs

end

mutual

/-- `parent.add_child(child)` resolved through object identity: append `new`
as the last child of every node whose creation position is `p` (the builder's
invariant makes that node unique). -/
def attachAt (p : ℕ) (new : BTree) : BTree → BTree
  | .node l q i cs =>
    .node l q i (attachAtL p new cs ++ if q = p then [new] else [])

/-- `attachAt` over a list of builder trees. -/
def attachAtL (p : ℕ) (new : BTree) : List BTree → List BTree
  | [] => []
  | c :: cs => attachAt p new c :: attachAtL p new cs

end

/-- The mutable state of `generate_random_tree`: the tree built so far, the
number of nodes created (the length of the Python `nodes` list), the parallel
`weights` list, and `idxs`, the `index` field of each created node in creation
order (`idxs[p]` is `nodes[p].index`). -/
structure BuildState where
  tree : BTree
  n : ℕ
  weights : List ℚ
  idxs : List ℕ
deriving Repr

/-- One iteration of the builder loop (lines 52–61): pick the attachment
parent by weighted sampling over the nodes built so far (draw `rp`), set
`weights[parent.index] = shape_modifier`, create the child labeled by a
uniform draw `rl` with `index = i`, append it to the parent's children, and
append the child and its weight `1 - shape_modifier` to the parallel lists. -/
def buildStep (labels : List ℕ) (shape : ℚ) (i : ℕ) (rp rl : ℚ)
    (st : BuildState) : BuildState :=
  let p := wpick st.weights (rp * st.weights.sum)
  let pidx := st.idxs.getD p 0
  ⟨attachAt p (BTree.node (uchoice labels rl) st.n i []) st.tree,
    st.n + 1,
    st.weights.set pidx shape ++ [1 - shape],
    st.idxs ++ [i]⟩

/-- `generate_random_tree(size, labels, shape_modifier)` (lines 47–62): root
labeled by draw `g 0` with `index = 0` and weight `1 - shape_modifier`, then
`size - 1` iterations of `buildStep`; iteration `i` consumes draws
`g (1 + 2*i)` (parent pick) and `g (2 + 2*i)` (child label). -/
def build (size : ℕ) (labels : List ℕ) (shape : ℚ) (g : ℕ → ℚ) : BuildState :=
  (List.range (size - 1)).foldl
    (fun st i => buildStep labels shape i (g (1 + 2 * i)) (g (2 + 2 * i)) st)
    ⟨BTree.node (uchoice labels (g 0)) 0 0 [], 1, [1 - shape], [0]⟩

/-- A `TreeNode` object on an explicit heap: label and the addresses of the
children.  Addresses are positions in the heap list; this models Python object
identity for the frame/aliasing claim. -/
structure HNode where
  label : ℕ
  children : List ℕ
deriving Repr, DecidableEq

/-- The edit loop of `generate_random_tree_from_base`, acting on the heap at
address `addr`: relabel mutates the node in place, append allocates a fresh
leaf at the end of the heap and appends its address to the node's children. -/
def opsH (labels : List ℕ) (g : ℕ → ℚ) :
    ℕ → List HNode → ℕ → ℕ → ℕ → List HNode × ℕ × ℕ
  | 0, h, _, e, k => (h, e, k)
  | n + 1, h, addr, e, k =>
    let nd := h.getD addr ⟨0, []⟩
    match chooseOp (g k) with
    | Op.label =>
      opsH labels g n (h.set addr ⟨uchoice labels (g (k + 1)), nd.children⟩)
        addr (e + 1) (k + 2)
    | Op.append =>
      opsH labels g n
        (h.set addr ⟨nd.label, nd.children ++ [h.length]⟩
          ++ [⟨uchoice labels (g (k + 1)), []⟩])
        addr (e + 1) (k + 2)

/-- Heap-level embedding of `generate_random_tree_from_base`, used for the
frame/aliasing claim: the function mutates the node objects reachable from
`addr` in place and returns the address it was given (`return tree,
current_edits` returns the argument object itself).  `fuel` bounds the
recursion depth (any value at least the final tree's height is exact; the
returned address is `addr` for every fuel). -/
def deriveH (sim : ℚ) (labels : List ℕ) (maxE : ℕ) (g : ℕ → ℚ) :
    ℕ → List HNode → ℕ → ℕ → ℕ → List HNode × ℕ × ℕ × ℕ
  | 0, h, addr, e, k => (h, addr, e, k)
  | fuel + 1, h, addr, e, k =>
    let s1 : List HNode × ℕ × ℕ :=
      if sim < g k ∧ e < maxE then
        opsH labels g (randint12 (g (k + 1))) h addr e (k + 2)
      else
        (h, e, k + 1)
    let cs := (s1.1.getD addr ⟨0, []⟩).children
    let fin := cs.foldl
      (fun acc c =>
        let r := deriveH sim labels maxE g fuel acc.1 c acc.2.1 acc.2.2
        (r.1, acc.2.1 + r.2.2.1, r.2.2.2))
      (s1.1, s1.2.1, s1.2.2)
    (fin.1, addr, fin.2.1, fin.2.2)

/-- `copy.deepcopy` of the tree rooted at `addr`: fresh copies of all
reachable nodes are appended to the heap (children first), and the address of
the copied root is returned.  `fuel` bounds the recursion depth. -/
def deepCopyH : ℕ → List HNode → ℕ → List HNode × ℕ
  | 0, h, addr => (h, addr)
  | fuel + 1, h, addr =>
    let nd := h.getD addr ⟨0, []⟩
    let r := nd.children.foldl
      (fun acc c =>
        let rc := deepCopyH fuel acc.1 c
        (rc.1, acc.2 ++ [rc.2]))
      (h, ([] : List ℕ))
    (r.1 ++ [⟨nd.label, r.2⟩], r.1.length)

/-- Invariant of the builder state after the root creation and after every
loop iteration: the tree holds exactly the created nodes (one node per
creation position below `n`), the `weights` and `idxs` lists run parallel to
the `nodes` list, and every weight is positive. -/
def BuildInv (st : BuildState) : Prop :=
  bcount st.tree = st.n
    ∧ st.weights.length = st.n
    ∧ st.idxs.length = st.n
    ∧ (∀ q, occ q st.tree = if q < st.n then 1 else 0)
    ∧ (∀ w ∈ st.weights, 0 < w)
    ∧ 0 < st.n

/-! ## General-purpose lemmas -/

/-- Strong structural induction for the nested inductive `TreeNode`. -/
theorem treeStrongInd (motive : TreeNode → Prop)
    (h : ∀ l cs, (∀ c ∈ cs, motive c) → motive (.node l cs)) :
    ∀ t, motive t := fun t =>
  match t with
  | .node l cs => h l cs (fun c hc => treeStrongInd motive h c)
termination_by t => sizeOf t
decreasing_by
  simp_wf
  have := List.sizeOf_lt_of_mem hc
  omega

theorem countNodes_pos (t : TreeNode) : 0 < countNodes t := by
  cases t
  simp [countNodes]

theorem countNodesL_append (xs ys : List TreeNode) :
    countNodesL (xs ++ ys) = countNodesL xs + countNodesL ys := by
  induction xs with
  | nil => simp [countNodesL]
  | cons c cs ih => simp [countNodesL, ih]; omega

theorem applyOps_edits (labels : List ℕ) (g : ℕ → ℚ) (n lab : ℕ)
    (leaves : List TreeNode) (e k : ℕ) :
    (applyOps labels g n lab leaves e k).edits = e + n := by
  induction n generalizing lab leaves e k with
  | zero => simp [applyOps]
  | succ m ih =>
    rw [applyOps]
    cases chooseOp (g k) <;> simp [ih] <;> omega

theorem applyOps_counts (labels : List ℕ) (g : ℕ → ℚ) (n lab : ℕ)
    (leaves : List TreeNode) (e k : ℕ) :
    (applyOps labels g n lab leaves e k).nLabel
      + (applyOps labels g n lab leaves e k).nAppend = n := by
  induction n generalizing lab leaves e k with
  | zero => simp [applyOps]
  | succ m ih =>
    rw [applyOps]
    cases chooseOp (g k) with
    | label =>
      have h := ih (uchoice labels (g (k + 1))) leaves (e + 1) (k + 2)
      simp
      omega
    | append =>
      have h := ih lab (leaves ++ [TreeNode.node (uchoice labels (g (k + 1))) []])
        (e + 1) (k + 2)
      simp
      omega

theorem applyOps_leaves (labels : List ℕ) (g : ℕ → ℚ) (n lab : ℕ)
    (leaves : List TreeNode) (e k : ℕ) :
    countNodesL (applyOps labels g n lab leaves e k).leaves
      = countNodesL leaves + (applyOps labels g n lab leaves e k).nAppend := by
  induction n generalizing lab leaves e k with
  | zero => simp [applyOps]
  | succ m ih =>
    rw [applyOps]
    cases chooseOp (g k) <;> simp [ih, countNodesL_append, countNodesL, countNodes] <;> omega

theorem randint12_le_two (q : ℚ) (hq : q < 1) : randint12 q ≤ 2 := by
  have h2 : q * 2 < 2 := by nlinarith
  have hf : ⌊q * 2⌋ < 2 := by
    rw [Int.floor_lt]
    push_cast
    exact h2
  simp [randint12]
  omega

/-- Accounting for `generate_random_tree_from_base`, for every draw stream:
(1) the returned `current_edits` counter is at least the initial counter plus
the number of operations actually applied in the call (so the returned value
over-approximates the applied edits), and (2) the node count of the returned
tree is the input's node count plus the number of insert-leaf operations
applied — in particular no draw sequence ever removes a node. -/
theorem derive_counts (sim : ℚ) (labels : List ℕ) (maxE : ℕ) (g : ℕ → ℚ) :
    ∀ t e k,
      (e + (derive sim labels maxE g t e k).nLabel
          + (derive sim labels maxE g t e k).nAppend
          ≤ (derive sim labels maxE g t e k).edits)
        ∧ countNodes (derive sim labels maxE g t e k).tree
            = countNodes t + (derive sim labels maxE g t e k).nAppend := by
  refine derive.induct sim labels maxE g
    (fun t e k =>
      (e + (derive sim labels maxE g t e k).nLabel
          + (derive sim labels maxE g t e k).nAppend
          ≤ (derive sim labels maxE g t e k).edits)
        ∧ countNodes (derive sim labels maxE g t e k).tree
            = countNodes t + (derive sim labels maxE g t e k).nAppend)
    (fun cs e k =>
      (e + (deriveList sim labels maxE g cs e k).nLabel
          + (deriveList sim labels maxE g cs e k).nAppend
          ≤ (deriveList sim labels maxE g cs e k).edits)
        ∧ countNodesL (deriveList sim labels maxE g cs e k).children
            = countNodesL cs + (deriveList sim labels maxE g cs e k).nAppend)
    ?_ ?_ ?_ ?_
  · intro lab cs e k h n r IH
    have hn : n = randint12 (g (k + 1)) := rfl
    have hr : r = applyOps labels g n lab [] e (k + 2) := rfl
    rw [hr, hn] at IH
    obtain ⟨IH1, IH2⟩ := IH
    have he := applyOps_edits labels g (randint12 (g (k + 1))) lab [] e (k + 2)
    have hc := applyOps_counts labels g (randint12 (g (k + 1))) lab [] e (k + 2)
    have hl := applyOps_leaves labels g (randint12 (g (k + 1))) lab [] e (k + 2)
    simp only [derive, dif_pos h]
    rw [countNodesL_append] at IH2
    simp only [countNodes, countNodesL] at *
    constructor
    · omega
    · omega
  · intro lab cs e k h IH
    obtain ⟨IH1, IH2⟩ := IH
    simp only [derive, dif_neg h]
    simp only [countNodes, countNodesL] at *
    constructor
    · omega
    · omega
  · intro e k
    simp [deriveList, countNodesL]
  · intro c cs e k t' ce k' nl na hrc IH1 IH2
    rw [hrc] at IH1
    simp only [deriveList, hrc]
    simp at IH1
    obtain ⟨IH11, IH12⟩ := IH1
    obtain ⟨IH21, IH22⟩ := IH2
    simp only [countNodes, countNodesL] at *
    constructor
    · omega
    · omega

/-- Budget accounting for `generate_random_tree_from_base`, for draws in
`[0,1)`: the number of operations actually applied in a call entered with
counter `e` is at most `max_edits + 1 - e`.  The bound is one more than the
remaining budget because the budget test happens once per node, before a batch
of one or two operations is applied. -/
theorem derive_cap (sim : ℚ) (labels : List ℕ) (maxE : ℕ) (g : ℕ → ℚ)
    (hg : ∀ i, g i < 1) :
    ∀ t e k,
      (derive sim labels maxE g t e k).nLabel
          + (derive sim labels maxE g t e k).nAppend ≤ (maxE + 1) - e := by
  refine derive.induct sim labels maxE g
    (fun t e k =>
      (derive sim labels maxE g t e k).nLabel
          + (derive sim labels maxE g t e k).nAppend ≤ (maxE + 1) - e)
    (fun cs e k =>
      (deriveList sim labels maxE g cs e k).nLabel
          + (deriveList sim labels maxE g cs e k).nAppend ≤ (maxE + 1) - e)
    ?_ ?_ ?_ ?_
  · intro lab cs e k h n r IH
    have hn : n = randint12 (g (k + 1)) := rfl
    have hr : r = applyOps labels g n lab [] e (k + 2) := rfl
    rw [hr, hn] at IH
    have he := applyOps_edits labels g (randint12 (g (k + 1))) lab [] e (k + 2)
    have hc := applyOps_counts labels g (randint12 (g (k + 1))) lab [] e (k + 2)
    have h1 : 1 ≤ randint12 (g (k + 1)) := by simp [randint12]
    have h2 : randint12 (g (k + 1)) ≤ 2 := randint12_le_two _ (hg (k + 1))
    simp only [derive, dif_pos h]
    simp only at *
    obtain ⟨hs, hee⟩ := h
    omega
  · intro lab cs e k h IH
    simp only [derive, dif_neg h]
    simp only at *
    omega
  · intro e k
    simp [deriveList]
  · intro c cs e k t' ce k' nl na hrc IH1 IH2
    have hlow := (derive_counts sim labels maxE g c e k).1
    rw [hrc] at IH1 hlow
    simp at IH1 hlow
    simp only [deriveList, hrc]
    simp only at *
    omega

/-- `generate_random_tree_from_base` at `similarity = 1`: no draw in `[0,1)`
exceeds the similarity, so no node is ever edited; starting from counter `0`
the call returns the tree unchanged, counter `0`, and consumes exactly one
draw per node. -/
theorem derive_id (labels : List ℕ) (maxE : ℕ) (g : ℕ → ℚ)
    (hg : ∀ i, g i < 1) :
    ∀ t e k, e = 0 →
      derive 1 labels maxE g t e k = ⟨t, 0, k + countNodes t, 0, 0⟩ := by
  refine derive.induct 1 labels maxE g
    (fun t e k => e = 0 →
      derive 1 labels maxE g t e k = ⟨t, 0, k + countNodes t, 0, 0⟩)
    (fun cs e k => e = 0 →
      deriveList 1 labels maxE g cs e k = ⟨cs, 0, k + countNodesL cs, 0, 0⟩)
    ?_ ?_ ?_ ?_
  · intro lab cs e k h n r IH he0
    exact absurd h.1 (not_lt.mpr (le_of_lt (hg k)))
  · intro lab cs e k h IH he0
    subst he0
    simp only [derive, dif_neg h]
    rw [IH rfl]
    simp [countNodes]
    omega
  · intro e k he0
    subst he0
    simp [deriveList, countNodesL]
  · intro c cs e k t' ce k' nl na hrc IH1 IH2 he0
    subst he0
    have h1 := IH1 rfl
    rw [hrc] at h1
    have h2 : t' = c ∧ ce = 0 ∧ k' = k + countNodes c ∧ nl = 0 ∧ na = 0 := by
      simpa [DOut.mk.injEq] using h1
    obtain ⟨hcq, hce, hk, hnl, hna⟩ := h2
    subst hcq hce hk hnl hna
    have h3 := IH2 rfl
    simp only [deriveList, hrc]
    rw [h3]
    simp [countNodesL]
    omega

/-- Claim C1 counterexample.  With `similarity = 0 ∈ [0,1]`, the non-empty
label list `[1]`, `maxEdits = 1 ≥ 0`, every draw `1/2 ∈ [0,1)` and the two-node
base `{1{2}}`, `generate_random_tree_from_base` actually applies 2 edit
operations — exceeding `maxEdits = 1`, so the edit total is not capped at
`maxEdits` — and returns `editsApplied = 4`, which is not the number of
operations actually applied: the counter is not shared but re-added across the
recursion (`current_edits += ce` adds a child's whole counter, which already
contains the caller's). -/
theorem C1_counterexample :
    ((derive 0 [1] 1 (fun _ => 1/2) (.node 1 [.node 2 []]) 0 0).nLabel
        + (derive 0 [1] 1 (fun _ => 1/2) (.node 1 [.node 2 []]) 0 0).nAppend = 2)
      ∧ ¬((derive 0 [1] 1 (fun _ => 1/2) (.node 1 [.node 2 []]) 0 0).nLabel
        + (derive 0 [1] 1 (fun _ => 1/2) (.node 1 [.node 2 []]) 0 0).nAppend ≤ 1)
      ∧ (derive 0 [1] 1 (fun _ => 1/2) (.node 1 [.node 2 []]) 0 0).edits = 4 := by
  norm_num [derive, deriveList, applyOps, chooseOp, wpick, uchoice, randint12]

/-- Claim C1, amended.  For every base tree, similarity, non-empty label list,
`maxEdits ≥ 0` and draw stream in `[0,1)`: `generate_random_tree_from_base`
started with counter 0 applies at most `maxEdits + 1` edit operations in total
across the traversal (the budget is tested once per node before a batch of 1–2
operations, so it can be overshot by one), and the returned `editsApplied` is
only an upper bound on the number of operations actually applied (the counter
is over-accumulated across the recursion, not shared). -/
theorem C1_amended (sim : ℚ) (labels : List ℕ) (maxE : ℕ) (g : ℕ → ℚ)
    (t : TreeNode) (k : ℕ) (hg : ∀ i, 0 ≤ g i ∧ g i < 1) :
    (derive sim labels maxE g t 0 k).nLabel
        + (derive sim labels maxE g t 0 k).nAppend ≤ maxE + 1
      ∧ (derive sim labels maxE g t 0 k).nLabel
        + (derive sim labels maxE g t 0 k).nAppend
          ≤ (derive sim labels maxE g t 0 k).edits := by
  constructor
  · have h := derive_cap sim labels maxE g (fun i => (hg i).2) t 0 k
    omega
  · have h := (derive_counts sim labels maxE g t 0 k).1
    omega

/-- Claim C1 amended, witness instantiation. -/
theorem C1_witness :
    (derive 0 [1] 3 (fun _ => 0) (.node 5 []) 0 0).nLabel
        + (derive 0 [1] 3 (fun _ => 0) (.node 5 []) 0 0).nAppend ≤ 3 + 1
      ∧ (derive 0 [1] 3 (fun _ => 0) (.node 5 []) 0 0).nLabel
        + (derive 0 [1] 3 (fun _ => 0) (.node 5 []) 0 0).nAppend
          ≤ (derive 0 [1] 3 (fun _ => 0) (.node 5 []) 0 0).edits :=
  C1_amended 0 [1] 3 (fun _ => 0) (.node 5 []) 0
    (fun _ => ⟨le_refl 0, by norm_num⟩)

/-- Claim C4 counterexample.  `generate_random_tree_from_base` never applies a
delete-and-promote edit: its operation choice ranges over the two-element set
`{relabel, insert-leaf}` only, and consequently for every draw sequence the
derived tree contains at least as many nodes as the base — no edit ever
removes a node, refuting the claim that some draw sequence applies a
child-removing edit. -/
theorem C4_counterexample :
    (∀ q : ℚ, chooseOp q = Op.label ∨ chooseOp q = Op.append)
      ∧ ∀ (sim : ℚ) (labels : List ℕ) (maxE : ℕ) (g : ℕ → ℚ) (t : TreeNode)
          (e k : ℕ),
          countNodes t ≤ countNodes (derive sim labels maxE g t e k).tree := by
  constructor
  · intro q
    unfold chooseOp
    split
    · exact Or.inl rfl
    · exact Or.inr rfl
  · intro sim labels maxE g t e k
    have h := (derive_counts sim labels maxE g t e k).2
    omega

/-- Claim C4, amended.  Every applied edit operation is chosen from the
two-element weighted set `{relabel: weight 2, insert-leaf: weight 1}` (the
relabel branch is taken exactly on the first two thirds of the scaled draw
mass), every operation of a batch is one of these two, and the node count of
the derived tree equals the base's plus the number of insert-leaf operations
applied — delete-and-promote is never applied. -/
theorem C4_amended :
    (∀ q : ℚ, 3 * q < 2 → chooseOp q = Op.label)
      ∧ (∀ q : ℚ, 2 ≤ 3 * q → chooseOp q = Op.append)
      ∧ (∀ (labels : List ℕ) (g : ℕ → ℚ) (n lab : ℕ) (leaves : List TreeNode)
          (e k : ℕ),
          (applyOps labels g n lab leaves e k).nLabel
            + (applyOps labels g n lab leaves e k).nAppend = n)
      ∧ ∀ (sim : ℚ) (labels : List ℕ) (maxE : ℕ) (g : ℕ → ℚ) (t : TreeNode)
          (e k : ℕ),
          countNodes (derive sim labels maxE g t e k).tree
            = countNodes t + (derive sim labels maxE g t e k).nAppend := by
  refine ⟨?_, ?_, applyOps_counts, ?_⟩
  · intro q h
    have h2 : q * 3 < 2 := by linarith
    simp [chooseOp, wpick, h2]
  · intro q h
    have h2 : ¬(q * 3 < 2) := by push_neg; linarith
    simp [chooseOp, wpick, h2]
  · intro sim labels maxE g t e k
    exact (derive_counts sim labels maxE g t e k).2

/-- Claim C4 amended, witness instantiation. -/
theorem C4_witness :
    chooseOp (1/2) = Op.label ∧ chooseOp (3/4) = Op.append :=
  ⟨C4_amended.1 (1/2) (by norm_num), C4_amended.2.1 (3/4) (by norm_num)⟩

/-- Claim C9: `generate_random_tree_from_base` with `similarity = 1.0` is the
identity for every base tree, label list, `maxEdits` and draw stream in
`[0,1)`: no draw beats the similarity, so the returned tree is the base
unchanged (same shape and labels), zero edits are reported, no operation is
applied, and exactly one draw is consumed per node. -/
theorem C9_similarity_one_identity (labels : List ℕ) (maxE : ℕ) (g : ℕ → ℚ)
    (t : TreeNode) (k : ℕ) (hg : ∀ i, 0 ≤ g i ∧ g i < 1) :
    derive 1 labels maxE g t 0 k = ⟨t, 0, k + countNodes t, 0, 0⟩ :=
  derive_id labels maxE g (fun i => (hg i).2) t 0 k rfl

/-- Claim C9, witness instantiation. -/
theorem C9_witness :
    derive 1 [1] 5 (fun _ => 0) (.node 1 [.node 2 []]) 0 0
      = ⟨.node 1 [.node 2 []], 0, 0 + countNodes (.node 1 [.node 2 []]), 0, 0⟩ :=
  C9_similarity_one_identity [1] 5 (fun _ => 0) (.node 1 [.node 2 []]) 0
    (fun _ => ⟨le_refl 0, by norm_num⟩)

/-- `get_size` returns the number of proper descendants: one less than the
node count of the subtree. -/
theorem get_size_eq (t : TreeNode) : get_size t = countNodes t - 1 := by
  induction t using treeStrongInd with
  | h l cs ih =>
    simp only [get_size, countNodes]
    induction cs with
    | nil => simp [get_sizeL, countNodesL]
    | cons c cs ihl =>
      simp only [get_sizeL, countNodesL, List.length_cons]
      have h1 := ih c (by simp)
      have h2 := countNodes_pos c
      have h3 := ihl (fun c hc => ih c (by simp [hc]))
      omega

/-- Claim C3 counterexample.  On a single leaf node `get_size` returns `0`,
not `1`: the source computes `len(self.children)` plus the children's sizes,
which omits the node itself. -/
theorem C3_counterexample :
    get_size (.node 1 []) = 0 ∧ get_size (.node 1 []) ≠ 1 := by
  constructor <;> simp [get_size, get_sizeL]

/-- Claim C3, amended.  For every tree node, the on-demand `get_size`
computation returns `len(children)` plus the sum of the children's `get_size`
values, which equals the number of proper descendants of the node — exactly
one less than the number of nodes of the subtree rooted there (so a single
leaf yields `0`, not `1`). -/
theorem C3_amended (t : TreeNode) :
    get_size t = countNodes t - 1 ∧ 1 ≤ countNodes t :=
  ⟨get_size_eq t, countNodes_pos t⟩

/-- Decimal digit characters never collide with the braces of the
serialization format. -/
theorem natChars_ne_obrace (n : ℕ) : ∀ c ∈ natChars n, c ≠ obrace := by
  induction n using Nat.strong_induction_on with
  | _ n ih =>
    rw [natChars]
    split
    · intro c hc
      simp at hc
      subst hc
      rename_i h10
      interval_cases n <;> decide
    · intro c hc
      rename_i h10
      simp at hc
      rcases hc with hc | hc
      · exact ih (n / 10) (Nat.div_lt_self (by omega) (by omega)) c hc
      · subst hc
        have hm : n % 10 < 10 := Nat.mod_lt _ (by omega)
        interval_cases hmod : n % 10 <;> simp [hmod] <;> decide

/-- Open-brace count of a serialized tree equals its node count. -/
theorem serialize_obrace_count :
    ∀ t : TreeNode, List.count obrace (serialize t) = countNodes t := by
  intro t
  induction t using treeStrongInd with
  | h l cs ih =>
    simp only [serialize, countNodes]
    rw [List.count_cons]
    rw [List.count_append, List.count_append]
    have hlab : List.count obrace (natChars l) = 0 := by
      rw [List.count_eq_zero]
      intro hmem
      exact natChars_ne_obrace l obrace hmem rfl
    have hcb : List.count obrace [cbrace] = 0 := by decide
    have hrec : List.count obrace (serializeL cs) = countNodesL cs := by
      induction cs with
      | nil => simp [serializeL, countNodesL]
      | cons c cs ihl =>
        simp only [serializeL, countNodesL]
        rw [List.count_append]
        rw [ih c (by simp), ihl (fun c hc => ih c (by simp [hc]))]
    rw [hlab, hcb, hrec]
    simp
    omega

/-- Claim C8: serialization produces the canonical bracket form — `{`, the
decimal label, the children's serializations in order with no separators,
then `}` — the number of open-brace characters in the output equals the node
count exactly, and the 3-node tree with root label 1 and leaf children
labeled 2 and 3 serializes to exactly the nine characters of
`\x7b1\x7b2\x7d\x7b3\x7d\x7d`. -/
theorem C8_serialization :
    (∀ t : TreeNode, List.count obrace (serialize t) = countNodes t)
      ∧ serialize (.node 1 [.node 2 [], .node 3 []])
          = "\x7b1\x7b2\x7d\x7b3\x7d\x7d".data := by
  constructor
  · exact serialize_obrace_count
  · have h1 : natChars 1 = ['1'] := by
      rw [natChars]
      norm_num [Nat.digitChar]
    have h2 : natChars 2 = ['2'] := by
      rw [natChars]
      norm_num [Nat.digitChar]
    have h3 : natChars 3 = ['3'] := by
      rw [natChars]
      norm_num [Nat.digitChar]
    simp only [serialize, serializeL, h1, h2, h3]
    decide

/-- Strong structural induction for the nested inductive `BTree`. -/
theorem btreeStrongInd (motive : BTree → Prop)
    (h : ∀ l p i cs, (∀ c ∈ cs, motive c) → motive (.node l p i cs)) :
    ∀ t, motive t := fun t =>
  match t with
  | .node l p i cs => h l p i cs (fun c hc => btreeStrongInd motive h c)
termination_by t => sizeOf t
decreasing_by
  simp_wf
  have := List.sizeOf_lt_of_mem hc
  omega

theorem bcountL_append (xs ys : List BTree) :
    bcountL (xs ++ ys) = bcountL xs + bcountL ys := by
  induction xs with
  | nil => simp [bcountL]
  | cons c cs ih => simp [bcountL, ih]; omega

theorem occL_append (p : ℕ) (xs ys : List BTree) :
    occL p (xs ++ ys) = occL p xs + occL p ys := by
  induction xs with
  | nil => simp [occL]
  | cons c cs ih => simp [occL, ih]; omega

/-- Attaching a new subtree at every node of position `p` adds its node count
once per occurrence of `p`. -/
theorem attachAt_bcount (p : ℕ) (new : BTree) :
    ∀ t, bcount (attachAt p new t) = bcount t + occ p t * bcount new := by
  intro t
  induction t using btreeStrongInd with
  | h l q i cs ih =>
    simp only [attachAt, bcount, occ]
    rw [bcountL_append]
    have hrec : bcountL (attachAtL p new cs) = bcountL cs + occL p cs * bcount new := by
      induction cs with
      | nil => simp [attachAtL, bcountL, occL]
      | cons c cs ihl =>
        simp only [attachAtL, bcountL, occL]
        rw [ih c (by simp), ihl (fun c hc => ih c (by simp [hc]))]
        ring
    rw [hrec]
    by_cases hq : q = p
    · simp [hq, bcountL]
      ring
    · simp [hq, bcountL]
      ring

/-- Occurrence counts after attachment. -/
theorem attachAt_occ (p : ℕ) (new : BTree) (r : ℕ) :
    ∀ t, occ r (attachAt p new t) = occ r t + occ p t * occ r new := by
  intro t
  induction t using btreeStrongInd with
  | h l q i cs ih =>
    simp only [attachAt, occ]
    rw [occL_append]
    have hrec : occL r (attachAtL p new cs) = occL r cs + occL p cs * occ r new := by
      induction cs with
      | nil => simp [attachAtL, occL]
      | cons c cs ihl =>
        simp only [attachAtL, occL]
        rw [ih c (by simp), ihl (fun c hc => ih c (by simp [hc]))]
        ring
    rw [hrec]
    by_cases hq : q = p
    · simp [hq, occL]
      ring
    · simp [hq, occL]
      ring

/-- `random.choices` never selects outside the population when the target
lies in `[0, total)`. -/
theorem wpick_lt (ws : List ℚ) (t : ℚ) (hne : ws ≠ []) (h0 : 0 ≤ t)
    (hlt : t < ws.sum) : wpick ws t < ws.length := by
  induction ws generalizing t with
  | nil => exact absurd rfl hne
  | cons w ws ih =>
    rw [wpick]
    rw [List.sum_cons] at hlt
    by_cases hw : t < w
    · simp [hw]
    · simp only [hw, if_false]
      cases ws with
      | nil =>
        simp at hlt
        exact absurd hlt (by push_neg at hw ⊢; linarith)
      | cons w2 ws2 =>
        have := ih (t - w) (by simp) (by push_neg at hw; linarith) (by linarith)
        simp only [List.length_cons] at this ⊢
        omega

/-- One builder iteration preserves the builder invariant, for any draws in
`[0,1)` and shape modifier in `(0,1)`. -/
theorem buildStep_inv (labels : List ℕ) (shape : ℚ) (i : ℕ) (rp rl : ℚ)
    (st : BuildState) (hs1 : 0 < shape) (hs2 : shape < 1)
    (hr1 : 0 ≤ rp) (hr2 : rp < 1) (h : BuildInv st) :
    BuildInv (buildStep labels shape i rp rl st) := by
  obtain ⟨hb, hw, hi, ho, hp, hn⟩ := h
  have hne : st.weights ≠ [] := by
    intro hcon
    rw [hcon] at hw
    simp at hw
    omega
  have hsum : 0 < st.weights.sum := List.sum_pos st.weights hp hne
  have htlt : rp * st.weights.sum < st.weights.sum := by nlinarith
  have ht0 : 0 ≤ rp * st.weights.sum := by positivity
  have hplt : wpick st.weights (rp * st.weights.sum) < st.n := by
    rw [show st.n = st.weights.length from hw.symm]
    exact wpick_lt st.weights _ hne ht0 htlt
  constructor
  · -- node count grows by one
    simp only [buildStep]
    rw [attachAt_bcount]
    rw [ho (wpick st.weights (rp * st.weights.sum))]
    simp [hplt, bcount, bcountL, hb]
  constructor
  · simp only [buildStep]
    simp [hw]
  constructor
  · simp only [buildStep]
    simp [hi]
  constructor
  · -- positions stay unique, the new leaf gets position `st.n`
    intro q
    simp only [buildStep]
    rw [attachAt_occ]
    rw [ho q, ho (wpick st.weights (rp * st.weights.sum))]
    rw [if_pos hplt]
    simp only [occ, occL]
    rcases Nat.lt_trichotomy q st.n with hq | hq | hq
    · rw [if_pos hq, if_neg (by omega : ¬(st.n = q)),
        if_pos (by omega : q < st.n + 1)]
    · rw [if_neg (by omega : ¬(q < st.n)), if_pos (by omega : st.n = q),
        if_pos (by omega : q < st.n + 1)]
    · rw [if_neg (by omega : ¬(q < st.n)), if_neg (by omega : ¬(st.n = q)),
        if_neg (by omega : ¬(q < st.n + 1))]
  constructor
  · -- all weights stay positive
    intro w hwm
    simp only [buildStep] at hwm
    rcases List.mem_append.mp hwm with hwm | hwm
    · rcases List.mem_or_eq_of_mem_set hwm with hwm | hwm
      · exact hp w hwm
      · rw [hwm]; exact hs1
    · simp at hwm
      rw [hwm]
      linarith
  · simp only [buildStep]
    omega

/-- The builder invariant holds after the whole build, and the node counter
finishes at the requested size. -/
theorem build_inv (size : ℕ) (labels : List ℕ) (shape : ℚ) (g : ℕ → ℚ)
    (hs1 : 0 < shape) (hs2 : shape < 1) (hg : ∀ i, 0 ≤ g i ∧ g i < 1)
    (hsize : 0 < size) :
    BuildInv (build size labels shape g) ∧ (build size labels shape g).n = size := by
  have hfold : ∀ (L : List ℕ) (st : BuildState), BuildInv st →
      BuildInv (L.foldl
        (fun st i => buildStep labels shape i (g (1 + 2 * i)) (g (2 + 2 * i)) st) st)
      ∧ (L.foldl
        (fun st i => buildStep labels shape i (g (1 + 2 * i)) (g (2 + 2 * i)) st) st).n
          = st.n + L.length := by
    intro L
    induction L with
    | nil =>
      intro st h
      simp only [List.foldl_nil, List.length_nil]
      exact ⟨h, by omega⟩
    | cons j L ih =>
      intro st h
      have hstep := buildStep_inv labels shape j (g (1 + 2 * j)) (g (2 + 2 * j)) st
        hs1 hs2 (hg (1 + 2 * j)).1 (hg (1 + 2 * j)).2 h
      have := ih _ hstep
      simp only [List.foldl_cons, List.length_cons]
      constructor
      · exact this.1
      · rw [this.2]
        simp only [buildStep]
        omega
  have hinit : BuildInv ⟨BTree.node (uchoice labels (g 0)) 0 0 [], 1, [1 - shape], [0]⟩ := by
    refine ⟨by simp [bcount, bcountL], by simp, by simp, ?_, ?_, by simp⟩
    · intro q
      by_cases hq : q = 0
      · simp [hq, occ, occL]
      · simp only [occ, occL]
        rw [if_neg (by omega : ¬((0 : ℕ) = q)), if_neg (by omega : ¬(q < 1))]
    · intro w hw
      simp at hw
      rw [hw]
      linarith
  have := hfold (List.range (size - 1)) _ hinit
  rw [build]
  refine ⟨this.1, ?_⟩
  rw [this.2]
  simp
  omega

/-- Claim C7: for every `size > 0`, non-empty label list, shape modifier in
`(0,1)` and draw stream in `[0,1)`, `generate_random_tree` returns a
(single-rooted, by construction of the tree type) tree with exactly `size`
nodes. -/
theorem C7_build_size (size : ℕ) (labels : List ℕ) (shape : ℚ) (g : ℕ → ℚ)
    (hsize : 0 < size) (hlab : labels ≠ []) (hs1 : 0 < shape) (hs2 : shape < 1)
    (hg : ∀ i, 0 ≤ g i ∧ g i < 1) :
    bcount (build size labels shape g).tree = size := by
  have h := build_inv size labels shape g hs1 hs2 hg hsize
  have hb := h.1.1
  rw [hb, h.2]

/-- Claim C7, witness instantiation. -/
theorem C7_witness :
    bcount (build 3 [1] (1/2) (fun _ => 0)).tree = 3 :=
  C7_build_size 3 [1] (1/2) (fun _ => 0) (by norm_num) (by simp)
    (by norm_num) (by norm_num) (fun _ => ⟨le_refl 0, by norm_num⟩)

/-- Claim C5 is refuted by the code: the builder stores `index = i` in the
child created in loop iteration `i`, but that child sits at position `i + 1`
of the parallel `nodes`/`weights` lists, so `weights[parent.index] =
shape_modifier` updates the slot of the node created just before the chosen
parent rather than the parent's own slot.  Concrete run (`size = 4`,
`shape_modifier = 2/3`, draws 0, 0, 0, 3/4, 0, 7/8, 0): the three iterations
attach to positions 0, 1 and 2, producing a chain; after the third iteration
(whose chosen parent is the node at position 2, with stored `index = 1`) the
weights are `[2/3, 2/3, 1/3, 1/3]` — the chosen parent's entry (position 2)
still holds `1 - shape_modifier = 1/3`, not `shape_modifier`, while the entry
of the unchosen node at position 1 was overwritten to `2/3`.  The claimed
invariant demands `[2/3, 1/3, 2/3, 1/3]`. -/
theorem C5_index_bug :
    wpick [2/3, 1/3, 1/3] ((7/8) * ((2:ℚ)/3 + (1/3 + (1/3 + 0)))) = 2
      ∧ (build 4 [1] (2/3)
          (fun k => if k = 3 then 3/4 else if k = 5 then 7/8 else 0)).weights
        = [2/3, 2/3, 1/3, 1/3]
      ∧ (build 4 [1] (2/3)
          (fun k => if k = 3 then 3/4 else if k = 5 then 7/8 else 0)).weights
        ≠ [2/3, 1/3, 2/3, 1/3] := by
  refine ⟨?_, ?_, ?_⟩
  · norm_num [wpick]
  · norm_num [build, buildStep, attachAt, attachAtL, wpick, uchoice,
      List.range_succ]
  · norm_num [build, buildStep, attachAt, attachAtL, wpick, uchoice,
      List.range_succ]

/-- Claim C2 is refuted by the code: the guard on line 224 is the chained
comparison `not (min_size > new_tree_size > max_size)`, i.e.
`not (min_size > s and s > max_size)`, whose inner conjunction is
unsatisfiable whenever `min_size ≤ max_size` — so the "normalization" branch
is entered for every derived tree, including trees whose size is already
within `[min_size, max_size]`, which are then pruned whenever the drawn
target is below the current size (e.g. a tree of size 3 with bounds `[2, 5]`
and target draw 2 undergoes `3 - 2 = 1` deletion). -/
theorem C2_always_normalizes (mn mx s : ℕ) (h : mn ≤ mx) :
    shouldNormalize mn mx s = true ∧ deleteModifications 3 2 = 1 := by
  constructor
  · simp [shouldNormalize]
    omega
  · simp [deleteModifications]

/-- Claim C2, witness instantiation. -/
theorem C2_witness :
    shouldNormalize 2 5 3 = true ∧ deleteModifications 3 2 = 1 :=
  C2_always_normalizes 2 5 3 (by norm_num)

/-- Claim C6 is refuted by the code: `generational_random_generator` extends
the active slice `labels_to_use` before each generation but passes the full
global `labels` list to `generate_random_tree_from_base` (line 218), so a
derived tree can receive labels outside the active alphabet.  Concretely:
with global alphabet `[1,2,3,4,5]`, seed slice `[1]` and
`generation_max_new_nodes = 1`, the next generation's active alphabet is
`[1,2]`, yet a single relabel (draws 1/2, 0, 0, 9/10) rewrites the root label
to `5`, which is not in the active alphabet. -/
theorem C6_full_alphabet_bug :
    extendLabels [1, 2, 3, 4, 5] [1] 1 1 = ([1, 2], 2)
      ∧ (genDeriveCall 0 [1, 2, 3, 4, 5] [1, 2]
          (fun k => if k = 0 then 1/2 else if k = 3 then 9/10 else 0)
          (.node 1 [])).tree = .node 5 []
      ∧ (5 : ℕ) ∉ [1, 2] := by
  refine ⟨?_, ?_, by decide⟩
  · norm_num [extendLabels]
  · norm_num [genDeriveCall, derive, deriveList, applyOps, chooseOp, wpick,
      uchoice, randint12]
    decide

/-- Claim C10: the mutation engine works in place on the object graph.  On
the heap model: (1) for every heap, address, budget, draw stream and fuel,
the tree returned by `generate_random_tree_from_base` is the very address it
was handed (the function returns its argument object); (2) called directly on
a base root (heap `[{label 1}]`, draws forcing one relabel to 2), it
overwrites the base's own node — base and derived tree alias; (3) after
`copy.deepcopy` (which allocates fresh addresses), the same mutation touches
only the copy and the original node is unchanged, which is the isolation the
callers rely on by always passing `copy.deepcopy(tree)`. -/
theorem C10_in_place_mutation :
    (∀ (sim : ℚ) (labels : List ℕ) (maxE : ℕ) (g : ℕ → ℚ)
        (fuel : ℕ) (h : List HNode) (addr e k : ℕ),
        (deriveH sim labels maxE g fuel h addr e k).2.1 = addr)
      ∧ (deriveH 0 [2] 9 (fun k => if k = 0 then 1/2 else 0) 5
          [⟨1, []⟩] 0 0 0).1 = [⟨2, []⟩]
      ∧ deepCopyH 9 [⟨1, []⟩] 0 = ([⟨1, []⟩, ⟨1, []⟩], 1)
      ∧ (deriveH 0 [2] 9 (fun k => if k = 0 then 1/2 else 0) 5
          [⟨1, []⟩, ⟨1, []⟩] 1 0 0).1 = [⟨1, []⟩, ⟨2, []⟩] := by
  refine ⟨?_, ?_, ?_, ?_⟩
  · intro sim labels maxE g fuel h addr e k
    cases fuel <;> rfl
  · norm_num [deriveH, opsH, chooseOp, wpick, uchoice, randint12]
  · rfl
  · norm_num [deriveH, opsH, chooseOp, wpick, uchoice, randint12]
